import Mathlib

/-!
Verification of the service-dependency graph logic of
`packages/jaeger-ui/src/components/DependencyGraph/DAG.tsx`.

The file embeds the data model (`TServiceCall`, `TVertex`, `TEdge`), the
bounded breadth-first neighborhood extraction `findConnectedServices`, the
graph formatter `formatServiceCalls`, the node-count ceiling of the `DAG`
component and its search match count, and proves the specified properties
about them.
-/

/-- One directed service call edge: `{parent, child, callCount}` from
`DAG.tsx` (`TServiceCall`). -/
structure TServiceCall where
  parent : String
  child : String
  callCount : Int
deriving Repr, DecidableEq

/-- A plexus vertex `{key}` (`TVertex` as used by `DAG.tsx`). -/
structure TVertex where
  key : String
deriving Repr, DecidableEq

/-- A plexus edge `{from, to, label}` (`TEdge` as used by `DAG.tsx`). -/
structure TEdge where
  «from» : String
  «to» : String
  label : String
deriving Repr, DecidableEq

/-- An entry of the BFS frontier queue of `findConnectedServices`:
`{service, depth}`. -/
structure QueueItem where
  service : String
  depth : Nat
deriving Repr, DecidableEq

/-- The body of the `serviceCalls.forEach(call => ...)` loop of
`findConnectedServices`: given the current service and its depth, process one
`call` against the state `(nodes, edges, queue)`.  The two `if`s run in
sequence, the second seeing the `nodes` updated by the first, exactly as the
mutation order of the source. -/
def visitCall (service : String) (depth : Nat) (call : TServiceCall)
    (st : List String × List TServiceCall × List QueueItem) :
    List String × List TServiceCall × List QueueItem :=
  let st1 :=
    if call.parent = service ∧ call.child ∉ st.1 then
      (st.1 ++ [call.child], st.2.1 ++ [call],
        st.2.2 ++ [QueueItem.mk call.child (depth + 1)])
    else st
  if call.child = service ∧ call.parent ∉ st1.1 then
    (st1.1 ++ [call.parent], st1.2.1 ++ [call],
      st1.2.2 ++ [QueueItem.mk call.parent (depth + 1)])
  else st1

/-- The whole `serviceCalls.forEach` scan of one dequeued `(service, depth)`
pair: fold `visitCall` over the entire edge list, mutating
`(nodes, edges, queue)`. -/
def expandCalls (service : String) (depth : Nat) (calls : List TServiceCall)
    (st : List String × List TServiceCall × List QueueItem) :
    List String × List TServiceCall × List QueueItem :=
  calls.foldl (fun acc c => visitCall service depth c acc) st

/-- The `while (queue.length > 0)` loop of `findConnectedServices`, with an
explicit fuel bounding the number of iterations (each iteration is one
`queue.shift()`).  `bfsLoop_fuel_stable` below shows the fuel passed by
`findConnectedServices` is always enough, so the truncation branch is never
taken and the function computes exactly what the unbounded source loop does. -/
def bfsLoop (calls : List TServiceCall) (maxDepth : Nat) :
    Nat → List String → List TServiceCall → List QueueItem →
    List String × List TServiceCall
  | _, nodes, edges, [] => (nodes, edges)
  | 0, nodes, edges, _ :: _ => (nodes, edges)
  | fuel + 1, nodes, edges, item :: rest =>
    if item.depth ≥ maxDepth then
      bfsLoop calls maxDepth fuel nodes edges rest
    else
      bfsLoop calls maxDepth fuel
        (expandCalls item.service item.depth calls (nodes, edges, rest)).1
        (expandCalls item.service item.depth calls (nodes, edges, rest)).2.1
        (expandCalls item.service item.depth calls (nodes, edges, rest)).2.2

/-- `findConnectedServices(serviceCalls, startService, maxDepth)`: BFS from
the focal service, visited set seeded with it, queue seeded with
`{service: startService, depth: 0}`.  The fuel `4 * |serviceCalls| + 2`
strictly dominates the loop's iteration count (see `bfsLoop_fuel_stable`). -/
def findConnectedServices (serviceCalls : List TServiceCall)
    (startService : String) (maxDepth : Nat) :
    List String × List TServiceCall :=
  bfsLoop serviceCalls maxDepth (4 * serviceCalls.length + 2)
    [startService] [] [QueueItem.mk startService 0]

/-- JS `s.trim()`: whitespace stripped from both ends, modelled on the
character list with `Char.isWhitespace`. -/
def jsTrim (s : String) : String :=
  String.mk
    (((s.data.dropWhile Char.isWhitespace).reverse.dropWhile
      Char.isWhitespace).reverse)

/-- The body of the `serviceCalls.forEach(d => ...)` loop of the unfiltered
branch of `formatServiceCalls`: state is `(nodeMap, nodes, edges)`; a call
with a blank (empty after trim) parent or child is skipped; each endpoint is
pushed as a vertex the first time it is seen; one edge per surviving call. -/
def formatStep (st : List String × List TVertex × List TEdge)
    (d : TServiceCall) : List String × List TVertex × List TEdge :=
  if (jsTrim d.parent).length ≠ 0 ∧ (jsTrim d.child).length ≠ 0 then
    let st1 :=
      if d.parent ∉ st.1 then
        (st.1 ++ [d.parent], st.2.1 ++ [TVertex.mk d.parent], st.2.2)
      else st
    let st2 :=
      if d.child ∉ st1.1 then
        (st1.1 ++ [d.child], st1.2.1 ++ [TVertex.mk d.child], st1.2.2)
      else st1
    (st2.1, st2.2.1,
      st2.2.2 ++ [TEdge.mk d.parent d.child (toString d.callCount)])
  else st

/-- The unfiltered branch of `formatServiceCalls` (taken when
`selectedService` is falsy). -/
def formatAllServiceCalls (serviceCalls : List TServiceCall) :
    List TVertex × List TEdge :=
  let st := serviceCalls.foldl formatStep ([], [], [])
  (st.2.1, st.2.2)

/-- `formatServiceCalls(serviceCalls, selectedService, selectedDepth)`.
`selectedService : string | null` is modelled as `Option String`; the
source's `if (!selectedService)` treats both `null` and the empty string as
falsy, selecting the unfiltered mode.  Otherwise it delegates to
`findConnectedServices` and maps the node set (in insertion order, as
`Array.from` of a JS `Set`) and edge list into vertices and edges. -/
def formatServiceCalls (serviceCalls : List TServiceCall)
    (selectedService : Option String) (selectedDepth : Nat) :
    List TVertex × List TEdge :=
  match selectedService with
  | none => formatAllServiceCalls serviceCalls
  | some s =>
    if s = "" then formatAllServiceCalls serviceCalls
    else
      let r := findConnectedServices serviceCalls s selectedDepth
      (r.1.map TVertex.mk,
        r.2.map (fun edge =>
          TEdge.mk edge.parent edge.child (toString edge.callCount)))

/-- JS `haystack.includes(needle)`: `needle` occurs in `haystack` as a
contiguous substring. -/
def jsIncludes (haystack needle : String) : Bool :=
  decide (needle.toList <:+: haystack.toList)

/-- JS `s.toLowerCase()`, modelled characterwise with `Char.toLower`
(ASCII case folding). -/
def jsToLower (s : String) : String :=
  String.mk (s.data.map Char.toLower)

/-- The match count the `DAG` component reports through
`onMatchCountChange`: when `uiFind` is truthy (present and nonempty), the
number of formatted nodes whose key contains the query case-insensitively
(`node.key.toLowerCase().includes(uiFind.toLowerCase())`); otherwise `0`.
The callback itself is modelled as present. -/
def reportedMatchCount (nodes : List TVertex) (uiFind : Option String) : Nat :=
  match uiFind with
  | none => 0
  | some q =>
    if q = "" then 0
    else
      (nodes.filter
        (fun node => jsIncludes (jsToLower node.key) (jsToLower q))).length

/-- What the `DAG` component renders: either the error panel with its
message, or the plexus digraph over the formatted vertices and edges. -/
inductive DAGContent where
  | errorPanel (message : String)
  | digraph (vertices : List TVertex) (edges : List TEdge)
deriving Repr, DecidableEq

/-- The error-panel message of `DAG` for a given formatted node count:
the template literal of the source with `data.nodes.length` interpolated. -/
def dagErrorMessage (nodeCount : Nat) : String :=
  "Too many services to render (" ++ toString nodeCount ++
    "). Hierarchical layout is disabled. For the Force-Directed layout, please select a focal service and the depth."

/-- Modelled from the spec: `DAG_MAX_NUM_SERVICES` is imported by `DAG.tsx`
from `../../constants`, a file not part of this fragment, so the ceiling is
taken as an arbitrary fixed natural `maxNumServices`.  The rendering decision
itself follows the source: `forceFocalServiceSelection` holds when the
formatted node count exceeds the ceiling, and then the error panel replaces
the digraph. -/
def DAG (maxNumServices : Nat) (serviceCalls : List TServiceCall)
    (selectedService : Option String) (selectedDepth : Nat) : DAGContent :=
  let data := formatServiceCalls serviceCalls selectedService selectedDepth
  let forceFocalServiceSelection := data.1.length > maxNumServices
  if forceFocalServiceSelection then
    DAGContent.errorPanel (dagErrorMessage data.1.length)
  else
    DAGContent.digraph data.1 data.2

/-- Undirected bounded reachability over the service-call edge list:
`ReachableWithin calls s d x` means `x` is reachable from `s` in at most `d`
hops, traversing call edges in either direction.  This is the specification
notion the BFS output is measured against. -/
inductive ReachableWithin (calls : List TServiceCall) (s : String) :
    Nat → String → Prop
  | refl (d : Nat) : ReachableWithin calls s d s
  | step (d : Nat) (x y : String) (c : TServiceCall) :
      ReachableWithin calls s d x → c ∈ calls →
      (c.parent = x ∧ c.child = y) ∨ (c.child = x ∧ c.parent = y) →
      ReachableWithin calls s (d + 1) y

/-- Specification of first-seen deduplication, from the spec's words:
traverse `keys` left to right, keeping each key the first time it occurs. -/
def firstSeenDedup (acc : List String) (keys : List String) : List String :=
  keys.foldl (fun seen k => if k ∈ seen then seen else seen ++ [k]) acc

/-- The set of service names occurring in the edge list. -/
def bfsUniverse (calls : List TServiceCall) : Finset String :=
  (calls.map TServiceCall.parent ++ calls.map TServiceCall.child).toFinset

/-- Termination measure of the BFS loop: twice the unvisited potential
nodes plus the queue length.  Each iteration strictly decreases it. -/
def bfsMeasure (calls : List TServiceCall) (nodes : List String)
    (queue : List QueueItem) : Nat :=
  2 * (bfsUniverse calls \ nodes.toFinset).card + queue.length

/-- One `visitCall` step appends to the three state components: the new queue
items carry the freshly visited services (one recorded edge each, at depth
`depth + 1`, adjacent to `service` through `c`). -/
theorem visitCall_spec (service : String) (depth : Nat) (c : TServiceCall)
    (st : List String × List TServiceCall × List QueueItem) :
    ∃ es qs,
      (visitCall service depth c st).1 = st.1 ++ qs.map QueueItem.service ∧
      (visitCall service depth c st).2.1 = st.2.1 ++ es ∧
      (visitCall service depth c st).2.2 = st.2.2 ++ qs ∧
      es.length = qs.length ∧
      (qs.map QueueItem.service).Nodup ∧
      (∀ q ∈ qs, q.service ∉ st.1 ∧ q.depth = depth + 1 ∧
        ((c.parent = service ∧ c.child = q.service) ∨
          (c.child = service ∧ c.parent = q.service))) ∧
      (∀ e ∈ es, e = c ∧
        (e.parent ∈ (visitCall service depth c st).1 ∨
          e.child ∈ (visitCall service depth c st).1)) := by
  obtain ⟨nodes, edges, queue⟩ := st
  by_cases h1 : c.parent = service ∧ c.child ∉ nodes
  · by_cases h2 : c.child = service ∧ c.parent ∉ nodes ++ [c.child]
    · refine ⟨[c, c],
        [QueueItem.mk c.child (depth + 1), QueueItem.mk c.parent (depth + 1)],
        ?_⟩
      have hne : c.parent ≠ c.child := by
        intro h
        exact h2.2 (by simp [h])
      simp only [visitCall, if_pos h1, if_pos h2]
      refine ⟨by simp, by simp, by simp, rfl, by simp [hne.symm], ?_, ?_⟩
      · intro q hq
        simp only [List.mem_cons, List.mem_singleton, List.not_mem_nil, or_false] at hq
        rcases hq with rfl | rfl
        · exact ⟨h1.2, rfl, Or.inl ⟨h1.1, rfl⟩⟩
        · refine ⟨fun hm => h2.2 (by simp [hm]), rfl, Or.inr ⟨h2.1, rfl⟩⟩
      · intro e he
        have hec : e = c := by
          simp only [List.mem_cons, List.not_mem_nil, or_false] at he
          rcases he with he | he <;> exact he
        subst hec
        exact ⟨rfl, Or.inl (by simp)⟩
    · refine ⟨[c], [QueueItem.mk c.child (depth + 1)], ?_⟩
      simp only [visitCall, if_pos h1, if_neg h2]
      refine ⟨by simp, by simp, by simp, rfl, by simp, ?_, ?_⟩
      · intro q hq
        simp only [List.mem_singleton] at hq
        subst hq
        exact ⟨h1.2, rfl, Or.inl ⟨h1.1, rfl⟩⟩
      · intro e he
        simp only [List.mem_singleton] at he
        subst he
        exact ⟨rfl, Or.inr (by simp)⟩
  · by_cases h2 : c.child = service ∧ c.parent ∉ nodes
    · refine ⟨[c], [QueueItem.mk c.parent (depth + 1)], ?_⟩
      simp only [visitCall, if_neg h1, if_pos h2]
      refine ⟨by simp, by simp, by simp, rfl, by simp, ?_, ?_⟩
      · intro q hq
        simp only [List.mem_singleton] at hq
        subst hq
        exact ⟨h2.2, rfl, Or.inr ⟨h2.1, rfl⟩⟩
      · intro e he
        simp only [List.mem_singleton] at he
        subst he
        exact ⟨rfl, Or.inl (by simp)⟩
    · refine ⟨[], [], ?_⟩
      simp only [visitCall, if_neg h1, if_neg h2]
      simp

/-- The whole `forEach` scan appends to the three state components; the new
queue items are precisely the freshly visited services (pairwise distinct,
absent from the incoming node list, at depth `depth + 1`, each adjacent to
`service` through some input call), there is one recorded edge per fresh
service, and every recorded edge is an input call touching the resulting
node list. -/
theorem expandCalls_spec (service : String) (depth : Nat)
    (calls : List TServiceCall)
    (st : List String × List TServiceCall × List QueueItem) :
    ∃ es qs,
      (expandCalls service depth calls st).1 = st.1 ++ qs.map QueueItem.service ∧
      (expandCalls service depth calls st).2.1 = st.2.1 ++ es ∧
      (expandCalls service depth calls st).2.2 = st.2.2 ++ qs ∧
      es.length = qs.length ∧
      (qs.map QueueItem.service).Nodup ∧
      (∀ q ∈ qs, q.service ∉ st.1 ∧ q.depth = depth + 1 ∧
        ∃ c ∈ calls, ((c.parent = service ∧ c.child = q.service) ∨
          (c.child = service ∧ c.parent = q.service))) ∧
      (∀ e ∈ es, e ∈ calls ∧
        (e.parent ∈ (expandCalls service depth calls st).1 ∨
          e.child ∈ (expandCalls service depth calls st).1)) := by
  induction calls generalizing st with
  | nil =>
    exact ⟨[], [], by simp [expandCalls]⟩
  | cons c cs ih =>
    have hfold : expandCalls service depth (c :: cs) st =
        expandCalls service depth cs (visitCall service depth c st) := by
      simp [expandCalls, List.foldl_cons]
    obtain ⟨es₀, qs₀, hn₀, he₀, hq₀, hlen₀, hnd₀, hqs₀, hes₀⟩ :=
      visitCall_spec service depth c st
    obtain ⟨es₁, qs₁, hn₁, he₁, hq₁, hlen₁, hnd₁, hqs₁, hes₁⟩ :=
      ih (visitCall service depth c st)
    refine ⟨es₀ ++ es₁, qs₀ ++ qs₁, ?_, ?_, ?_, ?_, ?_, ?_, ?_⟩
    · rw [hfold, hn₁, hn₀]
      simp [List.append_assoc]
    · rw [hfold, he₁, he₀]
      simp [List.append_assoc]
    · rw [hfold, hq₁, hq₀]
      simp [List.append_assoc]
    · simp [hlen₀, hlen₁]
    · rw [List.map_append]
      refine List.Nodup.append hnd₀ hnd₁ ?_
      intro x hx₀ hx₁
      obtain ⟨q, hq, rfl⟩ := List.mem_map.mp hx₁
      have := (hqs₁ q hq).1
      rw [hn₀] at this
      exact this (List.mem_append_right _ hx₀)
    · intro q hq
      rcases List.mem_append.mp hq with hq | hq
      · obtain ⟨hfresh, hdep, hadj⟩ := hqs₀ q hq
        exact ⟨hfresh, hdep, c, List.mem_cons_self c cs, hadj⟩
      · obtain ⟨hfresh, hdep, c', hc', hadj⟩ := hqs₁ q hq
        refine ⟨?_, hdep, c', List.mem_cons_of_mem c hc', hadj⟩
        rw [hn₀] at hfresh
        exact fun hm => hfresh (List.mem_append_left _ hm)
    · intro e he
      rcases List.mem_append.mp he with he | he
      · obtain ⟨rfl, htouch⟩ := hes₀ e he
        refine ⟨List.mem_cons_self e cs, ?_⟩
        rw [hfold, hn₁]
        rcases htouch with h | h
        · exact Or.inl (List.mem_append_left _ h)
        · exact Or.inr (List.mem_append_left _ h)
      · obtain ⟨hmem, htouch⟩ := hes₁ e he
        rw [hfold]
        exact ⟨List.mem_cons_of_mem c hmem, htouch⟩

/-- The loop invariant of `bfsLoop`: node and edge lists only grow; each
recorded edge visits exactly one fresh node (so the growth counts agree);
visited-node distinctness is preserved; and every recorded edge is an input
call touching the final node list. -/
theorem bfsLoop_spec (calls : List TServiceCall) (maxDepth : Nat) :
    ∀ (fuel : Nat) (nodes : List String) (edges : List TServiceCall)
      (queue : List QueueItem),
      (∃ ext, (bfsLoop calls maxDepth fuel nodes edges queue).1 = nodes ++ ext) ∧
      (∃ extE, (bfsLoop calls maxDepth fuel nodes edges queue).2 = edges ++ extE) ∧
      ((bfsLoop calls maxDepth fuel nodes edges queue).1.length + edges.length =
        nodes.length + (bfsLoop calls maxDepth fuel nodes edges queue).2.length) ∧
      (nodes.Nodup → (bfsLoop calls maxDepth fuel nodes edges queue).1.Nodup) ∧
      ((∀ e ∈ edges, e ∈ calls ∧ (e.parent ∈ nodes ∨ e.child ∈ nodes)) →
        ∀ e ∈ (bfsLoop calls maxDepth fuel nodes edges queue).2, e ∈ calls ∧
          (e.parent ∈ (bfsLoop calls maxDepth fuel nodes edges queue).1 ∨
            e.child ∈ (bfsLoop calls maxDepth fuel nodes edges queue).1)) := by
  intro fuel
  induction fuel with
  | zero =>
    intro nodes edges queue
    cases queue with
    | nil => exact ⟨⟨[], by simp [bfsLoop]⟩, ⟨[], by simp [bfsLoop]⟩,
        by simp [bfsLoop], fun h => by simpa [bfsLoop] using h,
        fun h => by simpa [bfsLoop] using h⟩
    | cons item rest => exact ⟨⟨[], by simp [bfsLoop]⟩, ⟨[], by simp [bfsLoop]⟩,
        by simp [bfsLoop], fun h => by simpa [bfsLoop] using h,
        fun h => by simpa [bfsLoop] using h⟩
  | succ fuel ih =>
    intro nodes edges queue
    cases queue with
    | nil => exact ⟨⟨[], by simp [bfsLoop]⟩, ⟨[], by simp [bfsLoop]⟩,
        by simp [bfsLoop], fun h => by simpa [bfsLoop] using h,
        fun h => by simpa [bfsLoop] using h⟩
    | cons item rest =>
      by_cases hd : item.depth ≥ maxDepth
      · have hstep : bfsLoop calls maxDepth (fuel + 1) nodes edges (item :: rest) =
            bfsLoop calls maxDepth fuel nodes edges rest := by
          simp [bfsLoop, hd]
        rw [hstep]
        exact ih nodes edges rest
      · have hstep : bfsLoop calls maxDepth (fuel + 1) nodes edges (item :: rest) =
            bfsLoop calls maxDepth fuel
              (expandCalls item.service item.depth calls (nodes, edges, rest)).1
              (expandCalls item.service item.depth calls (nodes, edges, rest)).2.1
              (expandCalls item.service item.depth calls (nodes, edges, rest)).2.2 := by
          simp [bfsLoop, hd]
        rw [hstep]
        obtain ⟨es, qs, hn, he, hq, hlen, hnd, hqs, hes⟩ :=
          expandCalls_spec item.service item.depth calls (nodes, edges, rest)
        obtain ⟨⟨ext, hext⟩, ⟨extE, hextE⟩, hcount, hnodup, hprov⟩ :=
          ih (expandCalls item.service item.depth calls (nodes, edges, rest)).1
            (expandCalls item.service item.depth calls (nodes, edges, rest)).2.1
            (expandCalls item.service item.depth calls (nodes, edges, rest)).2.2
        refine ⟨⟨qs.map QueueItem.service ++ ext, ?_⟩, ⟨es ++ extE, ?_⟩, ?_, ?_, ?_⟩
        · rw [hext, hn, List.append_assoc]
        · rw [hextE, he, List.append_assoc]
        · have h1 : (expandCalls item.service item.depth calls
              (nodes, edges, rest)).1.length = nodes.length + qs.length := by
            rw [hn]; simp
          have h2 : (expandCalls item.service item.depth calls
              (nodes, edges, rest)).2.1.length = edges.length + es.length := by
            rw [he]; simp
          omega
        · intro hnodes
          refine hnodup ?_
          rw [hn]
          refine List.Nodup.append hnodes hnd ?_
          intro x hx₀ hx₁
          obtain ⟨q, hq', rfl⟩ := List.mem_map.mp hx₁
          exact (hqs q hq').1 hx₀
        · intro hedges
          refine hprov ?_
          rw [he]
          intro e hemem
          rcases List.mem_append.mp hemem with hemem | hemem
          · obtain ⟨hc, htouch⟩ := hedges e hemem
            refine ⟨hc, ?_⟩
            rw [hn]
            rcases htouch with h | h
            · exact Or.inl (List.mem_append_left _ h)
            · exact Or.inr (List.mem_append_left _ h)
          · exact hes e hemem

/-- Bounded reachability is monotone in the hop bound. -/
theorem ReachableWithin.mono {calls : List TServiceCall} {s : String}
    {d : Nat} {x : String} (h : ReachableWithin calls s d x) :
    ∀ d', d ≤ d' → ReachableWithin calls s d' x := by
  induction h with
  | refl d => exact fun d' _ => .refl d'
  | step d x y c hx hc hadj ih =>
    intro d' hle
    cases d' with
    | zero => omega
    | succ d'' => exact .step d'' x y c (ih d'' (by omega)) hc hadj

/-- The BFS invariant for reachability: if every visited node is reachable
within `maxDepth` undirected hops of `s` and every queued service is
reachable within its recorded depth, then every node the loop ever visits is
reachable within `maxDepth` undirected hops of `s`. -/
theorem bfsLoop_reach (calls : List TServiceCall) (maxDepth : Nat) (s : String) :
    ∀ (fuel : Nat) (nodes : List String) (edges : List TServiceCall)
      (queue : List QueueItem),
      (∀ x ∈ nodes, ReachableWithin calls s maxDepth x) →
      (∀ q ∈ queue, ReachableWithin calls s q.depth q.service) →
      ∀ x ∈ (bfsLoop calls maxDepth fuel nodes edges queue).1,
        ReachableWithin calls s maxDepth x := by
  intro fuel
  induction fuel with
  | zero =>
    intro nodes edges queue hnodes _
    cases queue with
    | nil => simpa [bfsLoop] using hnodes
    | cons item rest => simpa [bfsLoop] using hnodes
  | succ fuel ih =>
    intro nodes edges queue hnodes hqueue
    cases queue with
    | nil => simpa [bfsLoop] using hnodes
    | cons item rest =>
      by_cases hd : item.depth ≥ maxDepth
      · rw [show bfsLoop calls maxDepth (fuel + 1) nodes edges (item :: rest) =
            bfsLoop calls maxDepth fuel nodes edges rest by simp [bfsLoop, hd]]
        exact ih nodes edges rest hnodes
          (fun q hq => hqueue q (List.mem_cons_of_mem item hq))
      · rw [show bfsLoop calls maxDepth (fuel + 1) nodes edges (item :: rest) =
            bfsLoop calls maxDepth fuel
              (expandCalls item.service item.depth calls (nodes, edges, rest)).1
              (expandCalls item.service item.depth calls (nodes, edges, rest)).2.1
              (expandCalls item.service item.depth calls (nodes, edges, rest)).2.2
            by simp [bfsLoop, hd]]
        obtain ⟨es, qs, hn, he, hq, hlen, hnd, hqs, hes⟩ :=
          expandCalls_spec item.service item.depth calls (nodes, edges, rest)
        have hitem : ReachableWithin calls s item.depth item.service :=
          hqueue item (List.mem_cons_self item rest)
        have hfreshreach : ∀ q ∈ qs,
            ReachableWithin calls s (item.depth + 1) q.service := by
          intro q hqmem
          obtain ⟨_, _, c, hc, hadj⟩ := hqs q hqmem
          exact .step item.depth item.service q.service c hitem hc hadj
        refine ih _ _ _ ?_ ?_
        · rw [hn]
          intro x hx
          rcases List.mem_append.mp hx with hx | hx
          · exact hnodes x hx
          · obtain ⟨q, hqmem, rfl⟩ := List.mem_map.mp hx
            exact (hfreshreach q hqmem).mono maxDepth (by omega)
        · rw [hq]
          intro q hqmem
          rcases List.mem_append.mp hqmem with hqmem | hqmem
          · exact hqueue q (List.mem_cons_of_mem item hqmem)
          · rw [(hqs q hqmem).2.1]
            exact hfreshreach q hqmem

/-- Summary facts about `findConnectedServices`: the focal service heads the
node list; one more node than edges; nodes are pairwise distinct; every
returned edge is an input call touching the returned nodes; every returned
node is reachable from the focal service within `d` undirected hops. -/
theorem findConnectedServices_props (calls : List TServiceCall) (s : String)
    (d : Nat) :
    (∃ ext, (findConnectedServices calls s d).1 = s :: ext) ∧
    (findConnectedServices calls s d).1.length =
      (findConnectedServices calls s d).2.length + 1 ∧
    (findConnectedServices calls s d).1.Nodup ∧
    (∀ e ∈ (findConnectedServices calls s d).2, e ∈ calls ∧
      (e.parent ∈ (findConnectedServices calls s d).1 ∨
        e.child ∈ (findConnectedServices calls s d).1)) ∧
    (∀ x ∈ (findConnectedServices calls s d).1, ReachableWithin calls s d x) := by
  obtain ⟨⟨ext, hext⟩, ⟨extE, hextE⟩, hcount, hnodup, hprov⟩ :=
    bfsLoop_spec calls d (4 * calls.length + 2) [s] [] [QueueItem.mk s 0]
  refine ⟨⟨ext, by simpa using hext⟩, ?_, ?_, ?_, ?_⟩
  · simp only [findConnectedServices]
    simp at hcount
    omega
  · exact hnodup (by simp)
  · exact hprov (by simp)
  · refine bfsLoop_reach calls d s (4 * calls.length + 2) [s] [] [QueueItem.mk s 0]
      ?_ ?_
    · intro x hx
      rw [List.mem_singleton] at hx
      subst hx
      exact .refl d
    · intro q hq
      rw [List.mem_singleton] at hq
      subst hq
      exact .refl 0

/-- One `formatStep`: the seen-key list only grows, by nonblank keys, keeping
distinctness; the vertex list stays the image of the seen-key list; at most
one edge (that of a surviving call) is appended; and the seen-key list is
updated by first-seen insertion of the call's endpoints when it survives. -/
theorem formatStep_spec (st : List String × List TVertex × List TEdge)
    (d : TServiceCall) :
    (∃ ext, (formatStep st d).1 = st.1 ++ ext ∧
      ∀ x ∈ ext, (jsTrim x).length ≠ 0) ∧
    (st.1.Nodup → (formatStep st d).1.Nodup) ∧
    (st.2.1 = st.1.map TVertex.mk →
      (formatStep st d).2.1 = (formatStep st d).1.map TVertex.mk) ∧
    ((formatStep st d).2.2 = st.2.2 ∨
      ((jsTrim d.parent).length ≠ 0 ∧ (jsTrim d.child).length ≠ 0 ∧
        (formatStep st d).2.2 =
          st.2.2 ++ [TEdge.mk d.parent d.child (toString d.callCount)])) ∧
    ((formatStep st d).1 = firstSeenDedup st.1
      (if (jsTrim d.parent).length ≠ 0 ∧ (jsTrim d.child).length ≠ 0 then
        [d.parent, d.child] else [])) := by
  obtain ⟨nm, ns, es⟩ := st
  by_cases hg : (jsTrim d.parent).length ≠ 0 ∧ (jsTrim d.child).length ≠ 0
  · by_cases hp : d.parent ∈ nm
    · by_cases hc : d.child ∈ nm
      · have hstep : formatStep (nm, ns, es) d =
            (nm, ns, es ++ [TEdge.mk d.parent d.child (toString d.callCount)]) := by
          simp [formatStep, hg, hp, hc]
        rw [hstep]
        refine ⟨⟨[], by simp, by simp⟩, fun h => h, fun h => h, ?_, ?_⟩
        · exact Or.inr ⟨hg.1, hg.2, rfl⟩
        · simp [firstSeenDedup, hg, hp, hc]
      · have hstep : formatStep (nm, ns, es) d =
            (nm ++ [d.child], ns ++ [TVertex.mk d.child],
              es ++ [TEdge.mk d.parent d.child (toString d.callCount)]) := by
          simp [formatStep, hg, hp, hc]
        rw [hstep]
        refine ⟨⟨[d.child], rfl, ?_⟩, ?_, ?_, ?_, ?_⟩
        · intro x hx
          rw [List.mem_singleton] at hx
          subst hx
          exact hg.2
        · intro hnd
          simp [List.nodup_append, hnd, hc]
        · intro hmap
          simp only at hmap
          simp [hmap]
        · exact Or.inr ⟨hg.1, hg.2, rfl⟩
        · simp [firstSeenDedup, hg, hp, hc]
    · by_cases hc : d.child ∈ nm ++ [d.parent]
      · have hc' : d.child ∈ nm ∨ d.child = d.parent := by simpa using hc
        have hstep : formatStep (nm, ns, es) d =
            (nm ++ [d.parent], ns ++ [TVertex.mk d.parent],
              es ++ [TEdge.mk d.parent d.child (toString d.callCount)]) := by
          simp [formatStep, hg, hp, hc']
        rw [hstep]
        refine ⟨⟨[d.parent], rfl, ?_⟩, ?_, ?_, ?_, ?_⟩
        · intro x hx
          rw [List.mem_singleton] at hx
          subst hx
          exact hg.1
        · intro hnd
          simp [List.nodup_append, hnd, hp]
        · intro hmap
          simp only at hmap
          simp [hmap]
        · exact Or.inr ⟨hg.1, hg.2, rfl⟩
        · simp [firstSeenDedup, hg, hp, hc']
      · have hc' : ¬(d.child ∈ nm ∨ d.child = d.parent) := by simpa using hc
        have hstep : formatStep (nm, ns, es) d =
            (nm ++ [d.parent, d.child],
              ns ++ [TVertex.mk d.parent, TVertex.mk d.child],
              es ++ [TEdge.mk d.parent d.child (toString d.callCount)]) := by
          simp [formatStep, hg, hp, hc']
        rw [hstep]
        refine ⟨⟨[d.parent, d.child], rfl, ?_⟩, ?_, ?_, ?_, ?_⟩
        · intro x hx
          simp only [List.mem_cons, List.mem_singleton, List.not_mem_nil,
            or_false] at hx
          rcases hx with rfl | rfl
          · exact hg.1
          · exact hg.2
        · intro hnd
          have h1 : d.child ∉ nm := fun h => hc' (Or.inl h)
          have h2 : d.parent ≠ d.child := fun h => hc' (Or.inr h.symm)
          simp [List.nodup_append, hnd, hp, h1, h2]
        · intro hmap
          simp only at hmap
          simp [hmap]
        · exact Or.inr ⟨hg.1, hg.2, rfl⟩
        · simp [firstSeenDedup, hg, hp, hc']
  · have hstep : formatStep (nm, ns, es) d = (nm, ns, es) := by
      simp [formatStep, hg]
    rw [hstep]
    exact ⟨⟨[], by simp, by simp⟩, fun h => h, fun h => h, Or.inl rfl,
      by simp [firstSeenDedup, hg]⟩

/-- The invariant of the unfiltered `forEach` of `formatServiceCalls`: the
seen-key list grows only by nonblank keys and stays distinct; the vertex
list is its image; every edge comes from a surviving (nonblank) input call;
and the seen-key list is the first-seen deduplication of the endpoints of
the surviving calls. -/
theorem format_foldl_spec (calls : List TServiceCall) :
    ∀ st : List String × List TVertex × List TEdge,
      (∃ ext, (calls.foldl formatStep st).1 = st.1 ++ ext ∧
        ∀ x ∈ ext, (jsTrim x).length ≠ 0) ∧
      (st.1.Nodup → (calls.foldl formatStep st).1.Nodup) ∧
      (st.2.1 = st.1.map TVertex.mk →
        (calls.foldl formatStep st).2.1 =
          (calls.foldl formatStep st).1.map TVertex.mk) ∧
      (∀ e ∈ (calls.foldl formatStep st).2.2, e ∈ st.2.2 ∨
        ∃ c ∈ calls, (jsTrim c.parent).length ≠ 0 ∧
          (jsTrim c.child).length ≠ 0 ∧
          e = TEdge.mk c.parent c.child (toString c.callCount)) ∧
      ((calls.foldl formatStep st).1 = firstSeenDedup st.1
        ((calls.filter fun c => decide ((jsTrim c.parent).length ≠ 0 ∧
          (jsTrim c.child).length ≠ 0)).flatMap fun c => [c.parent, c.child])) := by
  induction calls with
  | nil =>
    intro st
    exact ⟨⟨[], by simp, by simp⟩, fun h => h, fun h => by simpa using h,
      fun e he => Or.inl (by simpa using he), by simp [firstSeenDedup]⟩
  | cons d cs ih =>
    intro st
    obtain ⟨⟨ext₀, hext₀, hblank₀⟩, hnd₀, hmap₀, hedge₀, hfs₀⟩ :=
      formatStep_spec st d
    obtain ⟨⟨ext₁, hext₁, hblank₁⟩, hnd₁, hmap₁, hedge₁, hfs₁⟩ :=
      ih (formatStep st d)
    rw [List.foldl_cons]
    refine ⟨⟨ext₀ ++ ext₁, ?_, ?_⟩, ?_, ?_, ?_, ?_⟩
    · rw [hext₁, hext₀, List.append_assoc]
    · intro x hx
      rcases List.mem_append.mp hx with hx | hx
      · exact hblank₀ x hx
      · exact hblank₁ x hx
    · exact fun h => hnd₁ (hnd₀ h)
    · exact fun h => hmap₁ (hmap₀ h)
    · intro e he
      rcases hedge₁ e he with he' | ⟨c, hc, h1, h2, h3⟩
      · rcases hedge₀ with heq | ⟨g1, g2, heq⟩
        · rw [heq] at he'
          exact Or.inl he'
        · rw [heq] at he'
          rcases List.mem_append.mp he' with he'' | he''
          · exact Or.inl he''
          · rw [List.mem_singleton] at he''
            exact Or.inr ⟨d, List.mem_cons_self d cs, g1, g2, he''⟩
      · exact Or.inr ⟨c, List.mem_cons_of_mem d hc, h1, h2, h3⟩
    · rw [hfs₁, hfs₀]
      by_cases hg : (jsTrim d.parent).length ≠ 0 ∧ (jsTrim d.child).length ≠ 0
      · rw [List.filter_cons_of_pos (by simpa using hg), if_pos hg]
        simp only [List.flatMap_cons, firstSeenDedup, List.foldl_append]
      · rw [List.filter_cons_of_neg (by simpa using hg), if_neg hg]
        simp [firstSeenDedup]

/-- Any service reachable from `s` is `s` itself or an endpoint of some
input call. -/
theorem ReachableWithin.mem_endpoints {calls : List TServiceCall} {s : String}
    {d : Nat} {x : String} (h : ReachableWithin calls s d x) :
    x = s ∨ ∃ c ∈ calls, x = c.parent ∨ x = c.child := by
  induction h with
  | refl d => exact Or.inl rfl
  | step d a y c _ hc hadj _ =>
    right
    rcases hadj with ⟨_, h2⟩ | ⟨_, h2⟩
    · exact ⟨c, hc, Or.inr h2.symm⟩
    · exact ⟨c, hc, Or.inl h2.symm⟩

/-- Summary facts about the unfiltered mode: vertex keys are nonblank, the
key list is duplicate-free and is exactly the first-seen deduplication of
the endpoints of the surviving calls, and every edge comes from a surviving
input call. -/
theorem formatAllServiceCalls_props (calls : List TServiceCall) :
    (∀ v ∈ (formatAllServiceCalls calls).1, (jsTrim v.key).length ≠ 0) ∧
    ((formatAllServiceCalls calls).1.map TVertex.key).Nodup ∧
    ((formatAllServiceCalls calls).1.map TVertex.key = firstSeenDedup []
      ((calls.filter fun c => decide ((jsTrim c.parent).length ≠ 0 ∧
        (jsTrim c.child).length ≠ 0)).flatMap fun c => [c.parent, c.child])) ∧
    (∀ e ∈ (formatAllServiceCalls calls).2, ∃ c ∈ calls,
      (jsTrim c.parent).length ≠ 0 ∧ (jsTrim c.child).length ≠ 0 ∧
      e = TEdge.mk c.parent c.child (toString c.callCount)) := by
  obtain ⟨⟨ext, hext, hblank⟩, hnd, hmap, hedges, hfs⟩ :=
    format_foldl_spec calls ([], [], [])
  have hm : (calls.foldl formatStep ([], [], [])).2.1 =
      (calls.foldl formatStep ([], [], [])).1.map TVertex.mk := hmap (by simp)
  have hkeys : (formatAllServiceCalls calls).1.map TVertex.key =
      (calls.foldl formatStep ([], [], [])).1 := by
    show (calls.foldl formatStep ([], [], [])).2.1.map TVertex.key = _
    rw [hm, List.map_map]
    exact List.map_id _
  refine ⟨?_, ?_, ?_, ?_⟩
  · intro v hv
    have hv' : v ∈ (calls.foldl formatStep ([], [], [])).1.map TVertex.mk := by
      rw [← hm]
      exact hv
    obtain ⟨x, hx, rfl⟩ := List.mem_map.mp hv'
    rw [hext] at hx
    simpa using hblank x (by simpa using hx)
  · rw [hkeys]
    exact hnd (by simp)
  · rw [hkeys, hfs]
  · intro e he
    rcases hedges e he with he' | h
    · simp at he'
    · exact h

/-- Appending fresh nodes from the universe lowers the unvisited count by
exactly their number. -/
theorem card_sdiff_append (calls : List TServiceCall) (nodes F : List String)
    (hnd : F.Nodup) (hfresh : ∀ x ∈ F, x ∉ nodes)
    (huniv : ∀ x ∈ F, x ∈ bfsUniverse calls) :
    (bfsUniverse calls \ (nodes ++ F).toFinset).card + F.length =
      (bfsUniverse calls \ nodes.toFinset).card := by
  have hsub : F.toFinset ⊆ bfsUniverse calls \ nodes.toFinset := by
    intro x hx
    rw [List.mem_toFinset] at hx
    rw [Finset.mem_sdiff]
    exact ⟨huniv x hx, fun hm => hfresh x hx (List.mem_toFinset.mp hm)⟩
  have hsplit : bfsUniverse calls \ (nodes ++ F).toFinset =
      (bfsUniverse calls \ nodes.toFinset) \ F.toFinset := by
    ext x
    simp only [List.toFinset_append, Finset.mem_sdiff, Finset.mem_union]
    tauto
  rw [hsplit, Finset.card_sdiff hsub, List.toFinset_card_of_nodup hnd]
  have := Finset.card_le_card hsub
  rw [List.toFinset_card_of_nodup hnd] at this
  omega

/-- Past the measure, adding fuel does not change the result of the loop:
the loop has already drained its queue. -/
theorem bfsLoop_fuel_stable (calls : List TServiceCall) (maxDepth : Nat) :
    ∀ (fuel : Nat) (nodes : List String) (edges : List TServiceCall)
      (queue : List QueueItem), bfsMeasure calls nodes queue ≤ fuel →
      bfsLoop calls maxDepth (fuel + 1) nodes edges queue =
        bfsLoop calls maxDepth fuel nodes edges queue := by
  intro fuel
  induction fuel with
  | zero =>
    intro nodes edges queue hμ
    cases queue with
    | nil => simp [bfsLoop]
    | cons item rest =>
      exfalso
      simp [bfsMeasure] at hμ
  | succ fuel ih =>
    intro nodes edges queue hμ
    cases queue with
    | nil => simp [bfsLoop]
    | cons item rest =>
      by_cases hd : item.depth ≥ maxDepth
      · rw [show bfsLoop calls maxDepth (fuel + 1 + 1) nodes edges (item :: rest) =
            bfsLoop calls maxDepth (fuel + 1) nodes edges rest by
          simp [bfsLoop, hd]]
        rw [show bfsLoop calls maxDepth (fuel + 1) nodes edges (item :: rest) =
            bfsLoop calls maxDepth fuel nodes edges rest by
          simp [bfsLoop, hd]]
        refine ih nodes edges rest ?_
        simp only [bfsMeasure, List.length_cons] at hμ ⊢
        omega
      · rw [show bfsLoop calls maxDepth (fuel + 1 + 1) nodes edges (item :: rest) =
            bfsLoop calls maxDepth (fuel + 1)
              (expandCalls item.service item.depth calls (nodes, edges, rest)).1
              (expandCalls item.service item.depth calls (nodes, edges, rest)).2.1
              (expandCalls item.service item.depth calls (nodes, edges, rest)).2.2
            by simp [bfsLoop, hd]]
        rw [show bfsLoop calls maxDepth (fuel + 1) nodes edges (item :: rest) =
            bfsLoop calls maxDepth fuel
              (expandCalls item.service item.depth calls (nodes, edges, rest)).1
              (expandCalls item.service item.depth calls (nodes, edges, rest)).2.1
              (expandCalls item.service item.depth calls (nodes, edges, rest)).2.2
            by simp [bfsLoop, hd]]
        obtain ⟨es, qs, hn, he, hq, hlen, hnd, hqs, hes⟩ :=
          expandCalls_spec item.service item.depth calls (nodes, edges, rest)
        refine ih _ _ _ ?_
        have hcard := card_sdiff_append calls nodes (qs.map QueueItem.service)
          (by simpa using hnd)
          (by
            intro x hx
            obtain ⟨q, hqmem, rfl⟩ := List.mem_map.mp hx
            exact (hqs q hqmem).1)
          (by
            intro x hx
            obtain ⟨q, hqmem, rfl⟩ := List.mem_map.mp hx
            obtain ⟨-, -, c, hc, hadj⟩ := hqs q hqmem
            simp only [bfsUniverse, List.mem_toFinset, List.mem_append,
              List.mem_map]
            rcases hadj with ⟨-, h2⟩ | ⟨-, h2⟩
            · exact Or.inr ⟨c, hc, h2⟩
            · exact Or.inl ⟨c, hc, h2⟩)
        have hql : (List.map QueueItem.service qs).length = qs.length :=
          List.length_map _ _
        simp only [bfsMeasure] at hμ ⊢
        rw [hn, hq]
        simp only [List.length_append, List.length_map, List.length_cons] at hμ ⊢
        omega

/-- Any fuel at least the measure computes the stable (drained-queue)
result. -/
theorem bfsLoop_fuel_ge (calls : List TServiceCall) (maxDepth : Nat)
    (nodes : List String) (edges : List TServiceCall)
    (queue : List QueueItem) (fuel k : Nat)
    (hμ : bfsMeasure calls nodes queue ≤ fuel) :
    bfsLoop calls maxDepth (fuel + k) nodes edges queue =
      bfsLoop calls maxDepth fuel nodes edges queue := by
  induction k with
  | zero => rfl
  | succ k ih =>
    rw [show fuel + (k + 1) = (fuel + k) + 1 by omega]
    rw [bfsLoop_fuel_stable calls maxDepth (fuel + k) nodes edges queue
      (le_trans hμ (by omega))]
    exact ih

/-- The fuel `findConnectedServices` passes to `bfsLoop` dominates the
loop's measure, so the truncation branch of `bfsLoop` is never taken: with
any extra fuel the result is unchanged, i.e. the embedded loop computes the
source's unbounded `while` loop. -/
theorem findConnectedServices_fuel_sufficient (calls : List TServiceCall)
    (s : String) (d : Nat) (extra : Nat) :
    bfsLoop calls d (4 * calls.length + 2 + extra) [s] []
      [QueueItem.mk s 0] = findConnectedServices calls s d := by
  have hμ : bfsMeasure calls [s] [QueueItem.mk s 0] ≤ 4 * calls.length + 2 := by
    have h1 : (bfsUniverse calls \ ([s] : List String).toFinset).card ≤
        2 * calls.length := by
      calc (bfsUniverse calls \ ([s] : List String).toFinset).card
          ≤ (bfsUniverse calls).card := Finset.card_le_card (Finset.sdiff_subset)
        _ ≤ (calls.map TServiceCall.parent ++
              calls.map TServiceCall.child).length := List.toFinset_card_le _
        _ = 2 * calls.length := by simp; omega
    simp only [bfsMeasure, List.length_cons, List.length_nil]
    omega
  exact bfsLoop_fuel_ge calls d [s] [] [QueueItem.mk s 0]
    (4 * calls.length + 2) extra hμ

/-- C1: on edges `[{a,b,3},{b,c,5},{c,d,1}]` with focal service `b`,
`findConnectedServices` returns at depth 1 the node set `{a,b,c}` with the
edge set `{(a,b,3),(b,c,5)}`, and at depth 2 the node set `{a,b,c,d}` with
all three edges (as sets; order may vary). -/
theorem findConnectedServices_example_depths :
    (findConnectedServices [TServiceCall.mk "a" "b" 3, TServiceCall.mk "b" "c" 5,
      TServiceCall.mk "c" "d" 1] "b" 1).1.toFinset = {"a", "b", "c"} ∧
    (findConnectedServices [TServiceCall.mk "a" "b" 3, TServiceCall.mk "b" "c" 5,
      TServiceCall.mk "c" "d" 1] "b" 1).2.toFinset =
      ({TServiceCall.mk "a" "b" 3, TServiceCall.mk "b" "c" 5} :
        Finset TServiceCall) ∧
    (findConnectedServices [TServiceCall.mk "a" "b" 3, TServiceCall.mk "b" "c" 5,
      TServiceCall.mk "c" "d" 1] "b" 2).1.toFinset = {"a", "b", "c", "d"} ∧
    (findConnectedServices [TServiceCall.mk "a" "b" 3, TServiceCall.mk "b" "c" 5,
      TServiceCall.mk "c" "d" 1] "b" 2).2.toFinset =
      ({TServiceCall.mk "a" "b" 3, TServiceCall.mk "b" "c" 5,
        TServiceCall.mk "c" "d" 1} : Finset TServiceCall) := by
  refine ⟨by decide, by decide, by decide, by decide⟩

/-- C2 counterexample: with edges `[(a,b,1),(b,c,1)]`, focal `a`, depth 1,
the edge `(b,c,1)` touches the discovered node set `{a,b}` (at `b`) but is
not returned, so the edge list is not the full subset of input edges
touching the discovered nodes. -/
theorem findConnectedServices_not_all_touching_edges :
    ¬ (∀ e ∈ [TServiceCall.mk "a" "b" 1, TServiceCall.mk "b" "c" 1],
        (e.parent ∈ (findConnectedServices
            [TServiceCall.mk "a" "b" 1, TServiceCall.mk "b" "c" 1] "a" 1).1 ∨
          e.child ∈ (findConnectedServices
            [TServiceCall.mk "a" "b" 1, TServiceCall.mk "b" "c" 1] "a" 1).1) →
        e ∈ (findConnectedServices
          [TServiceCall.mk "a" "b" 1, TServiceCall.mk "b" "c" 1] "a" 1).2) := by
  decide

/-- C2 amended: every edge returned by `findConnectedServices` is an input
edge with an endpoint among the discovered nodes (the converse inclusion
does not hold: only edges that discover a new node are recorded). -/
theorem findConnectedServices_edges_sound (calls : List TServiceCall)
    (s : String) (d : Nat) :
    ∀ e ∈ (findConnectedServices calls s d).2, e ∈ calls ∧
      (e.parent ∈ (findConnectedServices calls s d).1 ∨
        e.child ∈ (findConnectedServices calls s d).1) :=
  (findConnectedServices_props calls s d).2.2.2.1

/-- Witness for C2's amended theorem at a concrete input. -/
theorem findConnectedServices_edges_sound_witness :
    TServiceCall.mk "a" "b" 3 ∈ [TServiceCall.mk "a" "b" 3] ∧
      ((TServiceCall.mk "a" "b" 3).parent ∈
          (findConnectedServices [TServiceCall.mk "a" "b" 3] "a" 1).1 ∨
        (TServiceCall.mk "a" "b" 3).child ∈
          (findConnectedServices [TServiceCall.mk "a" "b" 3] "a" 1).1) :=
  findConnectedServices_edges_sound [TServiceCall.mk "a" "b" 3] "a" 1
    (TServiceCall.mk "a" "b" 3) (by decide)

/-- C3: the BFS subgraph is a spanning tree of the discovered nodes: the
edge count is exactly the node count minus one. -/
theorem findConnectedServices_spanning_count (calls : List TServiceCall)
    (s : String) (d : Nat) :
    (findConnectedServices calls s d).2.length =
      (findConnectedServices calls s d).1.length - 1 ∧
    (findConnectedServices calls s d).1.length =
      (findConnectedServices calls s d).2.length + 1 := by
  have h := (findConnectedServices_props calls s d).2.1
  omega

/-- C4: with `maxDepth = 0`, `findConnectedServices` returns exactly the
focal node and no edges, and so does `formatServiceCalls` in focal mode. -/
theorem findConnectedServices_depth_zero (calls : List TServiceCall)
    (s : String) :
    findConnectedServices calls s 0 = ([s], []) ∧
    (s ≠ "" → formatServiceCalls calls (some s) 0 =
      ([TVertex.mk s], [])) := by
  have h1 : ∀ fuel, bfsLoop calls 0 (fuel + 1) [s] []
      [QueueItem.mk s 0] = ([s], []) := by
    intro fuel
    simp [bfsLoop]
  have h2 : findConnectedServices calls s 0 = ([s], []) := by
    show bfsLoop calls 0 (4 * calls.length + 1 + 1) [s] []
      [QueueItem.mk s 0] = ([s], [])
    exact h1 (4 * calls.length + 1)
  refine ⟨h2, ?_⟩
  intro hs
  simp [formatServiceCalls, hs, h2]

/-- Witness for C4 at a concrete input. -/
theorem findConnectedServices_depth_zero_witness :
    findConnectedServices [TServiceCall.mk "a" "b" 3] "b" 0 = (["b"], []) ∧
    formatServiceCalls [TServiceCall.mk "a" "b" 3] (some "b") 0 =
      ([TVertex.mk "b"], []) :=
  ⟨(findConnectedServices_depth_zero [TServiceCall.mk "a" "b" 3] "b").1,
    (findConnectedServices_depth_zero [TServiceCall.mk "a" "b" 3] "b").2
      (by decide)⟩

/-- C5: the focal service is always among the returned nodes, whatever the
edge list (in particular when it occurs in no edge). -/
theorem findConnectedServices_focal_mem (calls : List TServiceCall)
    (s : String) (d : Nat) :
    s ∈ (findConnectedServices calls s d).1 := by
  obtain ⟨⟨ext, hext⟩, -⟩ := findConnectedServices_props calls s d
  rw [hext]
  exact List.mem_cons_self s ext

/-- C6: in unfiltered mode `formatServiceCalls` skips calls with a blank
endpoint (every emitted edge comes from a call with nonblank endpoints),
never emits a vertex with an empty key, emits each vertex key at most once
(indeed in first-seen order), and on `[{a,"",2}]` yields zero nodes and
zero edges. -/
theorem formatServiceCalls_unfiltered_clean (calls : List TServiceCall)
    (depth : Nat) :
    (∀ v ∈ (formatServiceCalls calls none depth).1, v.key ≠ "") ∧
    ((formatServiceCalls calls none depth).1.map TVertex.key).Nodup ∧
    ((formatServiceCalls calls none depth).1.map TVertex.key = firstSeenDedup []
      ((calls.filter fun c => decide ((jsTrim c.parent).length ≠ 0 ∧
        (jsTrim c.child).length ≠ 0)).flatMap fun c => [c.parent, c.child])) ∧
    (∀ e ∈ (formatServiceCalls calls none depth).2, ∃ c ∈ calls,
      (jsTrim c.parent).length ≠ 0 ∧ (jsTrim c.child).length ≠ 0 ∧
      e = TEdge.mk c.parent c.child (toString c.callCount)) ∧
    formatServiceCalls [TServiceCall.mk "a" "" 2] none depth = ([], []) := by
  obtain ⟨hblank, hnd, hfs, hedges⟩ := formatAllServiceCalls_props calls
  refine ⟨?_, hnd, hfs, hedges, ?_⟩
  · intro v hv
    have h := hblank v hv
    intro hkey
    rw [hkey] at h
    exact h (by decide)
  · show formatAllServiceCalls [TServiceCall.mk "a" "" 2] = ([], [])
    decide

/-- Witness for C6 at a concrete input. -/
theorem formatServiceCalls_unfiltered_clean_witness :
    (TVertex.mk "x").key ≠ "" ∧
    ∃ c ∈ [TServiceCall.mk "x" "y" 7],
      (jsTrim c.parent).length ≠ 0 ∧ (jsTrim c.child).length ≠ 0 ∧
      TEdge.mk "x" "y" "7" =
        TEdge.mk c.parent c.child (toString c.callCount) :=
  ⟨(formatServiceCalls_unfiltered_clean [TServiceCall.mk "x" "y" 7] 0).1
      (TVertex.mk "x") (by decide),
    (formatServiceCalls_unfiltered_clean [TServiceCall.mk "x" "y" 7] 0).2.2.2.1
      (TEdge.mk "x" "y" "7") (by decide)⟩

/-- C7: in both modes the output vertex keys are pairwise distinct and every
output edge is the image of an input call: `from` its parent, `to` its
child, `label` the stringified call count. -/
theorem formatServiceCalls_wellformed (calls : List TServiceCall)
    (sel : Option String) (depth : Nat) :
    ((formatServiceCalls calls sel depth).1.map TVertex.key).Nodup ∧
    (∀ e ∈ (formatServiceCalls calls sel depth).2, ∃ c ∈ calls,
      e.«from» = c.parent ∧ e.«to» = c.child ∧
      e.label = toString c.callCount) := by
  match sel with
  | none =>
    obtain ⟨-, hnd, -, hedges⟩ := formatAllServiceCalls_props calls
    refine ⟨hnd, ?_⟩
    intro e he
    obtain ⟨c, hc, -, -, rfl⟩ := hedges e he
    exact ⟨c, hc, rfl, rfl, rfl⟩
  | some s =>
    by_cases hs : s = ""
    · subst hs
      obtain ⟨-, hnd, -, hedges⟩ := formatAllServiceCalls_props calls
      refine ⟨hnd, ?_⟩
      · intro e he
        obtain ⟨c, hc, -, -, rfl⟩ := hedges e he
        exact ⟨c, hc, rfl, rfl, rfl⟩
    · obtain ⟨-, -, hnd, hprov, -⟩ := findConnectedServices_props calls s depth
      have hform : formatServiceCalls calls (some s) depth =
          ((findConnectedServices calls s depth).1.map TVertex.mk,
            (findConnectedServices calls s depth).2.map (fun edge =>
              TEdge.mk edge.parent edge.child (toString edge.callCount))) := by
        simp [formatServiceCalls, hs]
      rw [hform]
      constructor
      · rw [List.map_map]
        have : (TVertex.key ∘ TVertex.mk) = fun x : String => x := rfl
        rw [this]
        rw [List.map_id']
        exact hnd
      · intro e he
        obtain ⟨edge, hedge, rfl⟩ := List.mem_map.mp he
        exact ⟨edge, (hprov edge hedge).1, rfl, rfl, rfl⟩

/-- Witness for C7 at a concrete input (focal mode). -/
theorem formatServiceCalls_wellformed_witness :
    ∃ c ∈ [TServiceCall.mk "a" "b" 3],
      (TEdge.mk "a" "b" "3").«from» = c.parent ∧
      (TEdge.mk "a" "b" "3").«to» = c.child ∧
      (TEdge.mk "a" "b" "3").label = toString c.callCount :=
  (formatServiceCalls_wellformed [TServiceCall.mk "a" "b" 3] (some "a") 1).2
    (TEdge.mk "a" "b" "3") (by decide)

/-- C8: every returned node is reachable from the focal service within
`d` undirected hops, the returned node list is duplicate-free, and hence
its length is at most the cardinality of any set containing all services
reachable within `d` undirected hops. -/
theorem findConnectedServices_reachable (calls : List TServiceCall)
    (s : String) (d : Nat) :
    (∀ x ∈ (findConnectedServices calls s d).1, ReachableWithin calls s d x) ∧
    (findConnectedServices calls s d).1.Nodup ∧
    (∀ S : Finset String, (∀ x, ReachableWithin calls s d x → x ∈ S) →
      (findConnectedServices calls s d).1.length ≤ S.card) := by
  obtain ⟨-, -, hnd, -, hreach⟩ := findConnectedServices_props calls s d
  refine ⟨hreach, hnd, ?_⟩
  intro S hS
  have hsub : (findConnectedServices calls s d).1.toFinset ⊆ S := by
    intro x hx
    exact hS x (hreach x (List.mem_toFinset.mp hx))
  calc (findConnectedServices calls s d).1.length
      = (findConnectedServices calls s d).1.toFinset.card :=
        (List.toFinset_card_of_nodup hnd).symm
    _ ≤ S.card := Finset.card_le_card hsub

/-- Witness for C8 at a concrete input. -/
theorem findConnectedServices_reachable_witness :
    ReachableWithin [TServiceCall.mk "a" "b" 3, TServiceCall.mk "b" "c" 5,
      TServiceCall.mk "c" "d" 1] "b" 1 "a" ∧
    (findConnectedServices [TServiceCall.mk "a" "b" 3, TServiceCall.mk "b" "c" 5,
      TServiceCall.mk "c" "d" 1] "b" 1).1.length ≤
      ({"a", "b", "c", "d"} : Finset String).card := by
  refine ⟨(findConnectedServices_reachable _ "b" 1).1 "a" (by decide),
    (findConnectedServices_reachable _ "b" 1).2.2 {"a", "b", "c", "d"} ?_⟩
  intro x hx
  rcases ReachableWithin.mem_endpoints hx with rfl | ⟨c, hc, hx'⟩
  · decide
  · simp only [List.mem_cons, List.not_mem_nil, or_false] at hc
    rcases hc with rfl | rfl | rfl <;> rcases hx' with rfl | rfl <;> decide

/-- C9: the `DAG` component renders the error panel (whose message embeds
the actual node count) exactly when the formatted node count exceeds the
ceiling, and the digraph otherwise. -/
theorem DAG_render_ceiling (maxN : Nat) (calls : List TServiceCall)
    (sel : Option String) (depth : Nat) :
    ((formatServiceCalls calls sel depth).1.length > maxN →
      DAG maxN calls sel depth = DAGContent.errorPanel
        (dagErrorMessage (formatServiceCalls calls sel depth).1.length) ∧
      ∃ pre post,
        dagErrorMessage (formatServiceCalls calls sel depth).1.length =
          pre ++ toString (formatServiceCalls calls sel depth).1.length ++
            post) ∧
    ((formatServiceCalls calls sel depth).1.length ≤ maxN →
      DAG maxN calls sel depth = DAGContent.digraph
        (formatServiceCalls calls sel depth).1
        (formatServiceCalls calls sel depth).2) := by
  constructor
  · intro h
    refine ⟨by simp [DAG, h], "Too many services to render (",
      "). Hierarchical layout is disabled. For the Force-Directed layout, please select a focal service and the depth.",
      rfl⟩
  · intro h
    have h' : ¬ ((formatServiceCalls calls sel depth).1.length > maxN) := by
      omega
    simp [DAG, h']

/-- Witness for C9 at concrete inputs on both sides of the ceiling. -/
theorem DAG_render_ceiling_witness :
    (DAG 0 [TServiceCall.mk "a" "b" 1] none 0 = DAGContent.errorPanel
        (dagErrorMessage
          (formatServiceCalls [TServiceCall.mk "a" "b" 1] none 0).1.length) ∧
      ∃ pre post,
        dagErrorMessage
          (formatServiceCalls [TServiceCall.mk "a" "b" 1] none 0).1.length =
          pre ++ toString
            (formatServiceCalls [TServiceCall.mk "a" "b" 1] none 0).1.length ++
            post) ∧
    DAG 5 [TServiceCall.mk "a" "b" 1] none 0 = DAGContent.digraph
      (formatServiceCalls [TServiceCall.mk "a" "b" 1] none 0).1
      (formatServiceCalls [TServiceCall.mk "a" "b" 1] none 0).2 :=
  ⟨(DAG_render_ceiling 0 [TServiceCall.mk "a" "b" 1] none 0).1 (by decide),
    (DAG_render_ceiling 5 [TServiceCall.mk "a" "b" 1] none 0).2 (by decide)⟩

/-- C10: the reported match count is the number of node keys containing the
query as a case-insensitive substring, zero when the query is absent or
empty; on nodes `[{key:"Foo"},{key:"bar"}]` with query `"fo"` it is 1. -/
theorem reportedMatchCount_correct (nodes : List TVertex) (q : String) :
    reportedMatchCount nodes none = 0 ∧
    reportedMatchCount nodes (some "") = 0 ∧
    (q ≠ "" → reportedMatchCount nodes (some q) =
      (nodes.filter fun v =>
        decide ((jsToLower q).data <:+: (jsToLower v.key).data)).length) ∧
    reportedMatchCount [TVertex.mk "Foo", TVertex.mk "bar"] (some "fo") = 1 := by
  refine ⟨rfl, by simp [reportedMatchCount], ?_, by decide⟩
  intro hq
  simp [reportedMatchCount, hq, jsIncludes, String.toList]

/-- Witness for C10 at a concrete query. -/
theorem reportedMatchCount_correct_witness :
    reportedMatchCount [TVertex.mk "Foo", TVertex.mk "bar"] (some "fo") =
      ([TVertex.mk "Foo", TVertex.mk "bar"].filter fun v =>
        decide ((jsToLower "fo").data <:+: (jsToLower v.key).data)).length :=
  (reportedMatchCount_correct [TVertex.mk "Foo", TVertex.mk "bar"] "fo").2.2.1
    (by decide)
